import Mathlib

/-!
Verification of the beleg compiler front-end core: the multi-file source map,
the append-only AST arena, and the diagnostic engine.  Each definition is a
shallow embedding of the corresponding C++ function; byte positions, u32
counters and vector indices are modelled as `Nat`, file contents as `List Char`
(one entry per byte), `std::optional` as `Option`.
-/

namespace Beleg

/-! ## Span and Location (src/source_map/source_map.hh) -/
/-- The `Span`: half-open byte range in the global coordinate space.
The C++ field `end` is called `stop` here (`end` is a Lean keyword). -/
structure Span where
  start : Nat
  stop : Nat
deriving DecidableEq, Repr

def Span.is_valid (s : Span) : Bool := decide (s.start ≤ s.stop)

def Span.len (s : Span) : Nat := s.stop - s.start

/-- The `Location`: file id (dense index), 1-based line, 0-based byte column. -/
structure Location where
  file : Nat
  line : Nat
  column : Nat
deriving DecidableEq, Repr

/-! ## SourceFile (src/source_map/source_map.cc) -/
structure SourceFile where
  name : String
  content : List Char
  start_pos : Nat
  line_starts : List Nat
deriving DecidableEq, Repr

/-- The `SourceFile::compute_line_starts` loop body: emits `i + 1` for every
newline byte at offset `i`, scanning from offset `i0`. -/
def line_starts_aux : List Char → Nat → List Nat
  | [], _ => []
  | c :: cs, i =>
    if c = '\n' then (i + 1) :: line_starts_aux cs (i + 1)
    else line_starts_aux cs (i + 1)

/-- The `SourceFile::compute_line_starts`: first line starts at byte 0. -/
def compute_line_starts (content : List Char) : List Nat :=
  0 :: line_starts_aux content 0

/-- The `SourceFile` constructor: stores the fields and computes `line_starts`. -/
def SourceFile.mk_file (name : String) (content : List Char) (start_pos : Nat) :
    SourceFile :=
  ⟨name, content, start_pos, compute_line_starts content⟩

/-- Index of the first element greater than `x`, for a sorted list: the
semantics of `std::upper_bound` on the (sorted) `line_starts` array. -/
def upper_bound_idx (l : List Nat) (x : Nat) : Nat :=
  (l.takeWhile (fun a => decide (a ≤ x))).length

/-- The `SourceFile::byte_pos_to_location`. -/
def SourceFile.byte_pos_to_location (f : SourceFile) (byte_pos : Nat)
    (file_id : Nat) : Location :=
  if f.content.length ≤ byte_pos then
    if f.line_starts.length = 0 then ⟨file_id, 1, 0⟩
    else
      ⟨file_id, f.line_starts.length,
       f.content.length - f.line_starts.getD (f.line_starts.length - 1) 0⟩
  else
    let ub := upper_bound_idx f.line_starts byte_pos
    ⟨file_id, ub, byte_pos - f.line_starts.getD (ub - 1) 0⟩

/-- The `SourceFile::location_to_byte_pos`. -/
def SourceFile.location_to_byte_pos (f : SourceFile) (line column : Nat) :
    Option Nat :=
  if line = 0 ∨ f.line_starts.length < line then none
  else
    let line_start := f.line_starts.getD (line - 1) 0
    let byte_pos := line_start + column
    if line < f.line_starts.length then
      if f.line_starts.getD line 0 < byte_pos then none else some byte_pos
    else
      if f.content.length < byte_pos then none else some byte_pos

/-- The bytes of the half-open range `[a, b)`: `(l.drop a).take (b - a)`. -/
def listExtract (l : List Char) (a b : Nat) : List Char :=
  (l.drop a).take (b - a)

/-- The `SourceFile::get_span_text` (file-local span). -/
def SourceFile.get_span_text (f : SourceFile) (span : Span) :
    Option (List Char) :=
  if span.is_valid = true ∧ span.stop ≤ f.content.length then
    some (listExtract f.content span.start span.stop)
  else none

/-! ## SourceMap (src/source_map/source_map.cc) -/
structure SourceMap where
  files : List SourceFile
  file_id_map : List (String × Nat)
  next_start_pos : Nat
deriving DecidableEq, Repr

def SourceMap.empty : SourceMap := ⟨[], [], 0⟩

/-- The `file_id_map.find(name)` on the name → id map. -/
def lookupName : List (String × Nat) → String → Option Nat
  | [], _ => none
  | (k, v) :: rest, name => if k = name then some v else lookupName rest name

/-- The `SourceMap::add_file`: idempotent by name; otherwise appends a new
`SourceFile` at the next start position and advances `next_start_pos`. -/
def SourceMap.add_file (s : SourceMap) (name : String) (content : List Char) :
    Nat × SourceMap :=
  match lookupName s.file_id_map name with
  | some fid => (fid, s)
  | none =>
    let fid := s.files.length
    let sf := SourceFile.mk_file name content s.next_start_pos
    (fid, ⟨s.files ++ [sf], s.file_id_map ++ [(name, fid)],
           s.next_start_pos + content.length⟩)

/-- The `SourceMap::load_file`; the filesystem read is represented by the `disk`
argument (`none` = unreadable path). -/
def SourceMap.load_file (s : SourceMap) (path : String)
    (disk : Option (List Char)) : Option Nat × SourceMap :=
  match lookupName s.file_id_map path with
  | some fid => (some fid, s)
  | none =>
    match disk with
    | none => (none, s)
    | some content =>
      let r := s.add_file path content
      (some r.1, r.2)

/-- The `SourceMap::get_file` (`nullptr` becomes `none`). -/
def SourceMap.get_file (s : SourceMap) (file_id : Nat) : Option SourceFile :=
  s.files[file_id]?

/-- The scanning loop of `SourceMap::lookup_location`; `i` is the index of the
first file of the remaining list. -/
def lookup_location_aux : List SourceFile → Nat → Nat → Option Location
  | [], _, _ => none
  | f :: fs, i, p =>
    if f.start_pos ≤ p ∧ p < f.start_pos + f.content.length then
      some (f.byte_pos_to_location (p - f.start_pos) i)
    else lookup_location_aux fs (i + 1) p

/-- The `SourceMap::lookup_location`. -/
def SourceMap.lookup_location (s : SourceMap) (global_pos : Nat) :
    Option Location :=
  lookup_location_aux s.files 0 global_pos

/-- The `SourceMap::lookup_byte_pos`. -/
def SourceMap.lookup_byte_pos (s : SourceMap) (loc : Location) : Option Nat :=
  match s.get_file loc.file with
  | none => none
  | some f =>
    match f.location_to_byte_pos loc.line loc.column with
    | none => none
    | some local_pos => some (f.start_pos + local_pos)

/-- The accumulation loop of `SourceMap::get_span_text`: `e` is `span.end`,
`acc` the text collected so far, `ce` the `covered_end` cursor. -/
def gstLoop (e : Nat) : List SourceFile → List Char → Nat →
    Option (List Char × Nat)
  | [], acc, ce => some (acc, ce)
  | f :: fs, acc, ce =>
    let file_end := f.start_pos + f.content.length
    if ce < file_end ∧ f.start_pos < e ∧ f.start_pos ≤ ce then
      let local_start := max ce f.start_pos - f.start_pos
      let local_end := min e file_end - f.start_pos
      match f.get_span_text ⟨local_start, local_end⟩ with
      | some t => gstLoop e fs (acc ++ t) (f.start_pos + local_end)
      | none => none
    else gstLoop e fs acc ce

/-- The `SourceMap::get_span_text`. -/
def SourceMap.get_span_text (s : SourceMap) (span : Span) :
    Option (List Char) :=
  if span.is_valid = true then
    match gstLoop span.stop s.files [] span.start with
    | some (acc, ce) => if span.stop ≤ ce then some acc else none
    | none => none
  else none

/-- Total byte length of a list of registered files. -/
def totalLen (fs : List SourceFile) : Nat :=
  (fs.map (fun f => f.content.length)).sum

/-! ## Reachable source-map states and their invariant -/
/-- States produced by any sequence of `add_file` / `load_file` calls. -/
inductive Reachable : SourceMap → Prop
  | empty : Reachable SourceMap.empty
  | add (s : SourceMap) (name : String) (content : List Char) :
      Reachable s → Reachable (s.add_file name content).2
  | load (s : SourceMap) (path : String) (disk : Option (List Char)) :
      Reachable s → Reachable (s.load_file path disk).2

/-- The files tile the global space consecutively starting at `B`. -/
def Chained : List SourceFile → Nat → Prop
  | [], _ => True
  | f :: fs, B => f.start_pos = B ∧ Chained fs (B + f.content.length)

/-- Every stored `line_starts` is the one computed from the content. -/
def FilesWF (fs : List SourceFile) : Prop :=
  ∀ f ∈ fs, f.line_starts = compute_line_starts f.content

/-- The source-map invariant maintained by registration. -/
def SMInv (s : SourceMap) : Prop :=
  Chained s.files 0 ∧ s.next_start_pos = totalLen s.files ∧ FilesWF s.files

/-- A sample reachable source map with two registered files. -/
def sampleMap : SourceMap :=
  ((SourceMap.empty.add_file "a.txt" ("hello\nworld".toList)).2.add_file
    "b.txt" ("test\ncode".toList)).2

/-! ## Claim C6: get_span_text -/
/-- Concatenation of all registered file contents: the global byte space. -/
def concatContent (fs : List SourceFile) : List Char :=
  (fs.map (fun f => f.content)).flatten

/-- A sample one-file source map with content "hello world". -/
def xMap : SourceMap :=
  (SourceMap.empty.add_file "x.txt" ("hello world".toList)).2

/-! ## AST arena (src/ast/ast.hh, src/ast/ast.cc) -/
/-- The `NodeKind` enumeration, in the order declared in ast.hh. -/
inductive NodeKind where
  | Invalid
  | Id | Str | Int | Real | Char | Bool | Unit | Symbol
  | ListOf | Tuple | Object
  | BoolNot | SelfLower | SelfCap | Null
  | OptionalType | PointerType | FunctionType
  | RangeFull | RangeTo | RangeToInclusive | RangeFrom | RangeFromTo
  | RangeFromToInclusive
  | Add | Sub | Mul | Div | Mod | AddAdd
  | BoolEq | BoolNotEq | BoolAnd | BoolOr | BoolGt | BoolGtEq | BoolLt
  | BoolLtEq
  | Select | Image
  | Deref | Refer | TypeCast
  | Call | IndexCall | ObjectCall
  | PostMatch | PatternArm | ConditionArm | CatchArm
  | ExprStatement | Assign | AddAssign | SubAssign | MulAssign | DivAssign
  | ConstDecl | LetDecl | ReturnStatement | BreakStatement
  | ContinueStatement | IfStatement | WhenStatement | WhileLoop | ForLoop
  | PatternIfGuard | PatternAsBind | PatternOptionSome | PatternObjectCall
  | PatternRangeTo | PatternRangeToInclusive | PatternRangeFrom
  | PatternRangeFromTo | PatternRangeFromToInclusive | PropertyPattern
  | PatternRecord | PatternList | PatternTuple
  | FunctionDef | StructDef | StructField | EnumDef | EnumVariantWithPattern
  | UnionDef | UnionVariant | Typealias | Newtype | ModuleDef
  | ModStatement | UseStatement | PathSelect | PathSelectMulti
  | PathSelectAll | SuperPath | PackagePath | PathAsBind
  | ParamTyped | ParamSelf | ParamSelfRef
  | Block
  | FileScope
deriving Repr

/-- The `NodeType` structural-arity classification. -/
inductive NodeType where
  | NoChild
  | SingleChild
  | DoubleChildren
  | TripleChildren
  | QuadrupleChildren
  | MultiChildren
  | SingleWithMultiChildren
  | DoubleWithMultiChildren
  | TripleWithMultiChildren
  | FunctionDefChildren
  | DiamondFunctionDefChildren
  | EffectDefChildren
  | HandlesDefChildren
  | TypeDefChildren
  | TraitDefChildren
  | ImplTraitDefChildren
  | ExtendTraitDefChildren
  | DeriveDefChildren
  | TypeAliasChildren
deriving Repr

/-- The `get_node_type` (src/ast/ast.cc): explicit case labels followed by a
`default: return NoChild;` arm, transcribed as the final wildcard. -/
def get_node_type : NodeKind → NodeType
  | .Invalid | .Id | .Str | .Int | .Real | .Char | .Bool | .Unit | .Symbol
  | .SelfLower | .SelfCap | .Null | .ParamSelf | .ParamSelfRef
  | .RangeFull => .NoChild
  | .BoolNot | .OptionalType | .PointerType | .FunctionType | .RangeTo
  | .RangeToInclusive | .RangeFrom | .Deref | .Refer | .TypeCast
  | .ExprStatement | .PatternOptionSome | .PatternRangeTo
  | .PatternRangeToInclusive | .PatternRangeFrom | .ModStatement
  | .UseStatement | .PathSelectAll | .SuperPath | .PackagePath
  | .ReturnStatement | .BreakStatement | .ContinueStatement => .SingleChild
  | .RangeFromTo | .RangeFromToInclusive | .Add | .Sub | .Mul | .Div | .Mod
  | .AddAdd | .BoolEq | .BoolNotEq | .BoolAnd | .BoolOr | .BoolGt
  | .BoolGtEq | .BoolLt | .BoolLtEq | .Select | .Image | .IndexCall
  | .PatternArm | .ConditionArm | .CatchArm | .PatternRangeFromTo
  | .PatternRangeFromToInclusive | .PropertyPattern | .StructField
  | .UnionVariant | .PathSelect | .PathAsBind | .ParamTyped | .Assign
  | .AddAssign | .SubAssign | .MulAssign | .DivAssign => .DoubleChildren
  | .ConstDecl | .LetDecl | .IfStatement | .WhileLoop | .PatternIfGuard
  | .PatternAsBind => .TripleChildren
  | .ForLoop => .QuadrupleChildren
  | .ListOf | .Tuple | .Object | .Block | .PatternRecord | .PatternList
  | .PatternTuple | .WhenStatement | .FileScope => .MultiChildren
  | .Call | .ObjectCall | .PostMatch
  | .PatternObjectCall => .SingleWithMultiChildren
  | .FunctionDef => .FunctionDefChildren
  | .StructDef | .EnumDef | .UnionDef | .ModuleDef => .TypeDefChildren
  | .Typealias | .Newtype => .TypeAliasChildren
  | _ => .NoChild

/-- The case-label set of the `get_node_type` switch (src/ast/ast.cc lines
7-133): `true` exactly for the kinds that appear as an explicit `case`
label, `false` for the kinds that reach the `default` arm. -/
def hasExplicitCase : NodeKind → Bool
  | .Invalid | .Id | .Str | .Int | .Real | .Char | .Bool | .Unit | .Symbol
  | .SelfLower | .SelfCap | .Null | .ParamSelf | .ParamSelfRef
  | .RangeFull
  | .BoolNot | .OptionalType | .PointerType | .FunctionType | .RangeTo
  | .RangeToInclusive | .RangeFrom | .Deref | .Refer | .TypeCast
  | .ExprStatement | .PatternOptionSome | .PatternRangeTo
  | .PatternRangeToInclusive | .PatternRangeFrom | .ModStatement
  | .UseStatement | .PathSelectAll | .SuperPath | .PackagePath
  | .ReturnStatement | .BreakStatement | .ContinueStatement
  | .RangeFromTo | .RangeFromToInclusive | .Add | .Sub | .Mul | .Div | .Mod
  | .AddAdd | .BoolEq | .BoolNotEq | .BoolAnd | .BoolOr | .BoolGt
  | .BoolGtEq | .BoolLt | .BoolLtEq | .Select | .Image | .IndexCall
  | .PatternArm | .ConditionArm | .CatchArm | .PatternRangeFromTo
  | .PatternRangeFromToInclusive | .PropertyPattern | .StructField
  | .UnionVariant | .PathSelect | .PathAsBind | .ParamTyped | .Assign
  | .AddAssign | .SubAssign | .MulAssign | .DivAssign
  | .ConstDecl | .LetDecl | .IfStatement | .WhileLoop | .PatternIfGuard
  | .PatternAsBind | .ForLoop
  | .ListOf | .Tuple | .Object | .Block | .PatternRecord | .PatternList
  | .PatternTuple | .WhenStatement | .FileScope
  | .Call | .ObjectCall | .PostMatch | .PatternObjectCall
  | .FunctionDef | .StructDef | .EnumDef | .UnionDef | .ModuleDef
  | .Typealias | .Newtype => true
  | _ => false

/-- A child slot of a node under construction: one resolved index or a
variable-length group (class `Child` in ast.hh). -/
inductive Child where
  | single (index : Nat)
  | multiple (indices : List Nat)

/-- The `NodeBuilder` (ast.hh): kind, span, ordered child slots. -/
structure NodeBuilder where
  kind : NodeKind
  span : Span
  children : List Child

/-- The `Ast` arena: parallel per-node arrays plus one flat child buffer
(fields `nodes_`, `spans_`, `children_start_`, `children_`, `root_`). -/
structure Ast where
  nodes : List NodeKind
  spans : List Span
  children_start : List Nat
  children : List Nat
  root : Nat

/-- The `Ast()` constructor: sentinel node at index 0, one invalid child. -/
def Ast.empty : Ast :=
  ⟨[NodeKind.Invalid], [⟨0, 0⟩], [0], [0], 0⟩

/-- The child-processing loop of `Ast::add_node`: walks the builder's child
slots in order, appending each variable-length group  as a length-prefixed run
`[count, idx...]` to the shared buffer and recording its offset, and collecting
one descriptor word per slot. Returns the grown buffer and the node's own
descriptor list. -/
def flattenChildren : List Child → List Nat → List Nat × List Nat
  | [], buf => (buf, [])
  | Child.single i :: rest, buf =>
    let r := flattenChildren rest buf
    (r.1, i :: r.2)
  | Child.multiple m :: rest, buf =>
    let r := flattenChildren rest (buf ++ m.length :: m)
    (r.1, buf.length :: r.2)

/-- The `Ast::add_node`: appends the node's descriptor list at the end of the
shared buffer and records kind, span and descriptor-list start. -/
def Ast.add_node (a : Ast) (b : NodeBuilder) : Nat × Ast :=
  let r := flattenChildren b.children a.children
  (a.nodes.length,
   ⟨a.nodes ++ [b.kind], a.spans ++ [b.span],
    a.children_start ++ [r.1.length], r.1 ++ r.2, a.root⟩)

/-- The `Ast::get_children`: the node's descriptor list, from its recorded start
up to the next node's start (or the end of storage for the last node). -/
def Ast.get_children (a : Ast) (node_index : Nat) : List Nat :=
  if node_index = 0 ∨ a.nodes.length ≤ node_index then []
  else
    let start := a.children_start.getD node_index 0
    let stop := if node_index + 1 < a.children_start.length
      then a.children_start.getD (node_index + 1) 0
      else a.children.length
    (a.children.drop start).take (stop - start)

/-- The `Ast::get_node_kind`. -/
def Ast.get_node_kind (a : Ast) (node_index : Nat) : Option NodeKind :=
  if node_index = 0 ∨ a.nodes.length ≤ node_index then none
  else some (a.nodes.getD node_index NodeKind.Invalid)

/-- The `Ast::get_span`. -/
def Ast.get_span (a : Ast) (node_index : Nat) : Option Span :=
  if node_index = 0 ∨ a.nodes.length ≤ node_index then none
  else some (a.spans.getD node_index ⟨0, 0⟩)

/-- The `Ast::get_node`. -/
def Ast.get_node (a : Ast) (node_index : Nat) :
    Option (NodeKind × Span × List Nat) :=
  if node_index = 0 ∨ a.nodes.length ≤ node_index then none
  else some (a.nodes.getD node_index NodeKind.Invalid,
             a.spans.getD node_index ⟨0, 0⟩,
             a.get_children node_index)

/-- The `Ast::get_multi_child_slice`: decodes a length-prefixed run at `p`. -/
def Ast.get_multi_child_slice (a : Ast) (slice_len_index : Nat) :
    Option (List Nat) :=
  if slice_len_index = 0 ∨ a.children.length ≤ slice_len_index then none
  else
    let count := a.children.getD slice_len_index 0
    if a.children.length < slice_len_index + 1 + count then none
    else some ((a.children.drop (slice_len_index + 1)).take count)

/-- The `Ast::set_root`. -/
def Ast.set_root (a : Ast) (r : Nat) : Ast := { a with root := r }

/-- Structural well-formedness of an arena: the three per-node arrays have
equal length, the sentinel exists, and the child buffer is non-empty.  This
holds for `Ast.empty` and is preserved by `add_node`. -/
def Ast.WF (a : Ast) : Prop :=
  1 ≤ a.nodes.length ∧ a.spans.length = a.nodes.length ∧
  a.children_start.length = a.nodes.length ∧ 1 ≤ a.children.length

/-- A concrete two-node arena used by the C3/C9 witnesses. -/
def sampleAst : Ast :=
  (Ast.empty.add_node
    ⟨NodeKind.Call, ⟨0, 4⟩, [Child.single 1, Child.multiple [2, 3]]⟩).2

/-! ## Diagnostic engine (src/diag/diag.hh, src/diag/diag.cc) -/
inductive DiagLevel where
  | Note
  | Warning
  | Error
  | Fatal
deriving DecidableEq, Repr

structure Label where
  span : Span
  text : String
  level : DiagLevel
  surrounding_lines : Nat
deriving DecidableEq, Repr

structure Diag where
  level : DiagLevel
  error_code : Option Nat
  primary_message : String
  primary_span : Span
  labels : List Label
  notes : List String
deriving DecidableEq, Repr

structure DiagCtxtOptions where
  max_errors : Nat
  max_warnings : Nat
  use_colors : Bool
  abort_on_first_error : Bool
  default_context_lines : Nat
deriving DecidableEq, Repr

/-- The defaults of `DiagCtxtOptions` in diag.hh. -/
def DiagCtxtOptions.default : DiagCtxtOptions := ⟨100, 1000, true, false, 0⟩

/-- The `DiagCtxt` state.  The emitter list is modelled by its length
`num_emitters`; `trace` records every dispatch event
`(emitter index, diagnostic)` in order, mirroring the loop
`for (auto& emitter : emitters_) emitter->emit(diag);`. -/
structure DiagCtxt where
  options : DiagCtxtOptions
  num_emitters : Nat
  error_count : Nat
  warning_count : Nat
  trace : List (Nat × Diag)
deriving DecidableEq, Repr

/-- The `DiagCtxt::can_emit`: Error and Fatal share the error budget, Warning has
its own, Note is always emittable. -/
def DiagCtxt.can_emit (c : DiagCtxt) (level : DiagLevel) : Bool :=
  match level with
  | .Error | .Fatal => decide (c.error_count < c.options.max_errors)
  | .Warning => decide (c.warning_count < c.options.max_warnings)
  | .Note => true

/-- The `DiagCtxt::emit`: drop entirely when not emittable, otherwise bump the
matching counter and dispatch to every emitter in registration order. -/
def DiagCtxt.emit (c : DiagCtxt) (d : Diag) : DiagCtxt :=
  if c.can_emit d.level then
    let bumped : DiagCtxt :=
      match d.level with
      | .Error | .Fatal => { c with error_count := c.error_count + 1 }
      | .Warning => { c with warning_count := c.warning_count + 1 }
      | .Note => c
    { bumped with trace := bumped.trace
        ++ (List.range c.num_emitters).map (fun i => (i, d)) }
  else c

/-- A `DiagCtxt` with `max_errors = 2` and one registered emitter. -/
def mkCtxt2 : DiagCtxt := ⟨⟨2, 1000, true, false, 0⟩, 1, 0, 0, []⟩

/-- An Error-level diagnostic used by the C2 witness. -/
def errDiag : Diag := ⟨.Error, some 4002, "boom", ⟨0, 0⟩, [], []⟩

/-! ## Terminal emitter (src/diag/terminal_emitter.cc) -/
/-- The `span_len` computation of
`TerminalEmitterImpl::render_underline_with_width` (lines 249-254): defaults
to 1; when the end location resolved and is on the same line, uses the column
difference, but falls back to 1 whenever that difference is not positive. -/
def underline_span_len (start_loc : Location) (end_loc : Option Location) :
    Nat :=
  match end_loc with
  | some e =>
    if e.line = start_loc.line then
      if start_loc.column < e.column then e.column - start_loc.column else 1
    else 1
  | none => 1

/-- The glyph run of `render_underline_with_width` (lines 241-271): note the
source assigns the same `UNDERLINE` character to both `underline_char` and
`pointer_char`, and has a `span_len == 0` branch that prints an insertion
caret. -/
def underline_glyphs (use_unicode : Bool) (span_len : Nat) : String :=
  let underline_char := if use_unicode then "─" else "-"
  let pointer_char := if use_unicode then "─" else "-"
  if span_len = 0 then (if use_unicode then "│" else "|")
  else if span_len = 1 then pointer_char
  else String.join ((List.range span_len).map
    (fun i => if i = span_len - 1 then pointer_char else underline_char))

/-- The full underline row printed by `render_underline_with_width`, in the
`use_colors = false` configuration where `style` and `reset` are empty
strings: gutter padding, line prefix, leading spaces up to the start column,
the glyph run, then the label text if non-empty. -/
def render_underline (use_unicode : Bool) (label : Label)
    (start_loc : Location) (end_loc : Option Location) (line_width : Nat) :
    String :=
  " " ++ String.mk (List.replicate line_width ' ')
    ++ (if use_unicode then " │ " else " | ")
    ++ String.mk (List.replicate start_loc.column ' ')
    ++ underline_glyphs use_unicode (underline_span_len start_loc end_loc)
    ++ (if label.text = "" then "" else " " ++ label.text) ++ "\n"

/-! ## Claim C8: label ordering in render_labels -/
/-- The guarantee of `std::sort` with comparator
`a.span.start < b.span.start` (render_labels, lines 113-118): the output is
*some* permutation of the input that is non-descending in span start.
Stability is not guaranteed by `std::sort`. -/
def IsStdSortResult (input output : List Label) : Prop :=
  List.Perm input output ∧
  List.Pairwise (fun a b => a.span.start ≤ b.span.start) output

/-- The render loop of `render_labels` (lines 120-122): renders the sorted
list in order; the element at position 0 is primary (`i == 0`). -/
def rendered_labels : List Label → List (Label × Bool)
  | [] => []
  | a :: rest => (a, true) :: rest.map (fun lab => (lab, false))

/-- Two labels with equal span start, in insertion order. -/
def labA : Label := ⟨⟨5, 6⟩, "a", .Error, 1⟩

def labB : Label := ⟨⟨5, 6⟩, "b", .Error, 1⟩

theorem chained_append {fs : List SourceFile} {B : Nat} (h : Chained fs B)
    (f : SourceFile) (hf : f.start_pos = B + totalLen fs) :
    Chained (fs ++ [f]) B := by
  induction fs generalizing B with
  | nil =>
    simp only [List.nil_append, Chained]
    refine ⟨?_, trivial⟩
    simpa [totalLen] using hf
  | cons g gs ih =>
    obtain ⟨hg, hrest⟩ := h
    refine ⟨hg, ih hrest ?_⟩
    simp only [totalLen, List.map_cons, List.sum_cons] at hf ⊢
    omega

theorem add_file_inv {s : SourceMap} (hinv : SMInv s) (name : String)
    (content : List Char) : SMInv (s.add_file name content).2 := by
  obtain ⟨hc, hn, hw⟩ := hinv
  unfold SourceMap.add_file
  cases hfind : lookupName s.file_id_map name with
  | some fid => exact ⟨hc, hn, hw⟩
  | none =>
    refine ⟨chained_append hc _ (by simpa [SourceFile.mk_file] using hn), ?_, ?_⟩
    · simp [totalLen, SourceFile.mk_file]
      simp [totalLen] at hn
      omega
    · intro f hf
      rcases List.mem_append.mp hf with hmem | hmem
      · exact hw f hmem
      · simp only [List.mem_singleton] at hmem
        subst hmem; rfl

theorem reachable_inv {s : SourceMap} (h : Reachable s) : SMInv s := by
  induction h with
  | empty => exact ⟨trivial, rfl, fun f hf => absurd hf (List.not_mem_nil f)⟩
  | add s name content _ ih => exact add_file_inv ih name content
  | load s path disk _ ih =>
    obtain ⟨hc, hn, hw⟩ := ih
    unfold SourceMap.load_file
    cases hfind : lookupName s.file_id_map path with
    | some fid => exact ⟨hc, hn, hw⟩
    | none =>
      cases disk with
      | none => exact ⟨hc, hn, hw⟩
      | some content => exact add_file_inv ⟨hc, hn, hw⟩ path content

/-! ## Claim C4: start positions are assigned by concatenation and are stable -/
theorem chained_start_eq {fs : List SourceFile} {B : Nat} (h : Chained fs B) :
    ∀ (i : Nat) (f : SourceFile), fs[i]? = some f →
      f.start_pos = B + totalLen (fs.take i) := by
  induction fs generalizing B with
  | nil => intro i f hf; simp at hf
  | cons g gs ih =>
    obtain ⟨hg, hrest⟩ := h
    intro i f hf
    cases i with
    | zero =>
      simp only [List.getElem?_cons_zero, Option.some.injEq] at hf
      subst hf
      simp [totalLen, hg]
    | succ i =>
      simp only [List.getElem?_cons_succ] at hf
      have := ih hrest i f hf
      simp only [List.take_succ_cons, totalLen, List.map_cons, List.sum_cons]
      simp only [totalLen] at this
      omega

theorem add_file_files (s : SourceMap) (name : String) (content : List Char) :
    (s.add_file name content).2.files = s.files ∨
    (s.add_file name content).2.files
      = s.files ++ [SourceFile.mk_file name content s.next_start_pos] := by
  unfold SourceMap.add_file
  cases lookupName s.file_id_map name with
  | some fid => exact Or.inl rfl
  | none => exact Or.inr rfl

theorem load_file_files (s : SourceMap) (path : String)
    (disk : Option (List Char)) :
    (s.load_file path disk).2.files = s.files ∨
    ∃ content, (s.load_file path disk).2.files
      = s.files ++ [SourceFile.mk_file path content s.next_start_pos] := by
  unfold SourceMap.load_file
  cases lookupName s.file_id_map path with
  | some fid => exact Or.inl rfl
  | none =>
    cases disk with
    | none => exact Or.inl rfl
    | some content =>
      rcases add_file_files s path content with h | h
      · exact Or.inl h
      · exact Or.inr ⟨content, h⟩

/-- Claim C4: in every reachable source map, file `i`'s `start_pos` is the sum
of the byte lengths of files `0..i-1`, `next_start_pos` is the total length,
and later registrations (`add_file` / `load_file`) never change a previously
registered file. -/
theorem c4_start_pos_inv (s : SourceMap) (h : Reachable s) :
    (∀ (i : Nat) (f : SourceFile), s.files[i]? = some f →
        f.start_pos = totalLen (s.files.take i)) ∧
    s.next_start_pos = totalLen s.files ∧
    (∀ name content j, j < s.files.length →
        (s.add_file name content).2.files[j]? = s.files[j]?) ∧
    (∀ path disk j, j < s.files.length →
        (s.load_file path disk).2.files[j]? = s.files[j]?) := by
  obtain ⟨hc, hn, _⟩ := reachable_inv h
  refine ⟨fun i f hf => by simpa using chained_start_eq hc i f hf, hn, ?_, ?_⟩
  · intro name content j hj
    rcases add_file_files s name content with he | he
    · rw [he]
    · rw [he, List.getElem?_append, if_pos hj]
  · intro path disk j hj
    rcases load_file_files s path disk with he | ⟨content, he⟩
    · rw [he]
    · rw [he, List.getElem?_append, if_pos hj]

theorem sampleMap_reachable : Reachable sampleMap :=
  Reachable.add _ _ _ (Reachable.add _ _ _ Reachable.empty)

/-- Witness for C4 at a concrete two-file source map. -/
theorem c4_witness :
    sampleMap.next_start_pos = totalLen sampleMap.files ∧
    (∃ f, sampleMap.files[1]? = some f ∧
      f.start_pos = totalLen (sampleMap.files.take 1)) :=
  ⟨(c4_start_pos_inv sampleMap sampleMap_reachable).2.1,
   ⟨SourceFile.mk_file "b.txt" ("test\ncode".toList) 11, by decide,
    (c4_start_pos_inv sampleMap sampleMap_reachable).1 1 _ (by decide)⟩⟩

/-! ## Claim C1: lookup_location / lookup_byte_pos round trip -/
theorem takeWhile_getD_true (q : Nat → Bool) (l : List Nat) :
    ∀ i, i < (l.takeWhile q).length → q (l.getD i 0) = true := by
  induction l with
  | nil => intro i h; simp [List.takeWhile] at h
  | cons a t ih =>
    intro i h
    by_cases ha : q a
    · simp only [List.takeWhile, ha, List.length_cons] at h
      cases i with
      | zero => simpa using ha
      | succ i =>
        simp only [List.getD_cons_succ]
        exact ih i (by omega)
    · simp [List.takeWhile, ha] at h

theorem takeWhile_getD_false (q : Nat → Bool) (l : List Nat)
    (h : (l.takeWhile q).length < l.length) :
    q (l.getD (l.takeWhile q).length 0) = false := by
  induction l with
  | nil => simp at h
  | cons a t ih =>
    by_cases ha : q a
    · simp only [List.takeWhile, ha, List.length_cons] at h ⊢
      simpa using ih (by omega)
    · have ha' : q a = false := by simpa using ha
      simp [List.takeWhile, ha']

theorem takeWhile_length_le (q : Nat → Bool) (l : List Nat) :
    (l.takeWhile q).length ≤ l.length := by
  induction l with
  | nil => simp
  | cons a t ih =>
    by_cases ha : q a
    · simpa [List.takeWhile, ha] using ih
    · simp [List.takeWhile, ha]

/-- The core per-file round trip: converting an in-range local byte offset to a
line/column location and back yields the same offset. -/
theorem location_roundtrip (f : SourceFile)
    (hwf : f.line_starts = compute_line_starts f.content)
    (pos : Nat) (hpos : pos < f.content.length) (fid : Nat) :
    f.location_to_byte_pos (f.byte_pos_to_location pos fid).line
      (f.byte_pos_to_location pos fid).column = some pos := by
  have hnle : ¬ f.content.length ≤ pos := by omega
  have hub1 : 1 ≤ upper_bound_idx f.line_starts pos := by
    rw [hwf]
    simp [upper_bound_idx, compute_line_starts, List.takeWhile]
  have hoble : upper_bound_idx f.line_starts pos ≤ f.line_starts.length :=
    takeWhile_length_le _ f.line_starts
  have hstart_le :
      f.line_starts.getD (upper_bound_idx f.line_starts pos - 1) 0 ≤ pos := by
    have h := takeWhile_getD_true (fun a => decide (a ≤ pos)) f.line_starts
      (upper_bound_idx f.line_starts pos - 1)
      (show _ < upper_bound_idx f.line_starts pos by omega)
    simpa using h
  have hloc : f.byte_pos_to_location pos fid
      = ⟨fid, upper_bound_idx f.line_starts pos,
         pos - f.line_starts.getD (upper_bound_idx f.line_starts pos - 1) 0⟩ := by
    unfold SourceFile.byte_pos_to_location
    rw [if_neg hnle]
  rw [hloc]
  unfold SourceFile.location_to_byte_pos
  simp only
  rw [if_neg (by omega)]
  have hbyte : f.line_starts.getD (upper_bound_idx f.line_starts pos - 1) 0
      + (pos - f.line_starts.getD (upper_bound_idx f.line_starts pos - 1) 0)
      = pos := by omega
  by_cases hlt : upper_bound_idx f.line_starts pos < f.line_starts.length
  · rw [if_pos hlt]
    have hnext : (fun a => decide (a ≤ pos))
        (f.line_starts.getD (upper_bound_idx f.line_starts pos) 0) = false :=
      takeWhile_getD_false _ f.line_starts hlt
    have hgt : pos < f.line_starts.getD (upper_bound_idx f.line_starts pos) 0 := by
      simp only [decide_eq_false_iff_not, not_le] at hnext
      exact hnext
    rw [if_neg (by omega), hbyte]
  · rw [if_neg hlt, if_neg (by omega), hbyte]

theorem mem_of_getElem?_sf {l : List SourceFile} {j : Nat} {f : SourceFile}
    (h : l[j]? = some f) : f ∈ l := by
  induction l generalizing j with
  | nil => simp at h
  | cons a t ih =>
    cases j with
    | zero =>
      simp only [List.getElem?_cons_zero, Option.some.injEq] at h
      subst h; exact List.mem_cons_self a t
    | succ j =>
      simp only [List.getElem?_cons_succ] at h
      exact List.mem_cons_of_mem a (ih h)

theorem bp2l_file (f : SourceFile) (b fid : Nat) :
    (f.byte_pos_to_location b fid).file = fid := by
  unfold SourceFile.byte_pos_to_location
  split
  · split <;> rfl
  · rfl

theorem chained_start_le {fs : List SourceFile} {B : Nat} (h : Chained fs B) :
    ∀ (j : Nat) (f : SourceFile), fs[j]? = some f → B ≤ f.start_pos := by
  induction fs generalizing B with
  | nil => intro j f hf; simp at hf
  | cons g gs ih =>
    obtain ⟨hg, hrest⟩ := h
    intro j f hf
    cases j with
    | zero =>
      simp only [List.getElem?_cons_zero, Option.some.injEq] at hf
      subst hf; omega
    | succ j =>
      simp only [List.getElem?_cons_succ] at hf
      have := ih hrest j f hf
      omega

theorem lookup_aux_some {fs : List SourceFile} {B : Nat} (hch : Chained fs B) :
    ∀ (j : Nat) (f : SourceFile) (p i : Nat), fs[j]? = some f → f.start_pos ≤ p →
      p < f.start_pos + f.content.length →
      lookup_location_aux fs i p
        = some (f.byte_pos_to_location (p - f.start_pos) (i + j)) := by
  induction fs generalizing B with
  | nil => intro j f p i hf; simp at hf
  | cons g gs ih =>
    obtain ⟨hg, hrest⟩ := hch
    intro j f p i hf h1 h2
    cases j with
    | zero =>
      simp only [List.getElem?_cons_zero, Option.some.injEq] at hf
      subst hf
      unfold lookup_location_aux
      rw [if_pos ⟨h1, h2⟩, Nat.add_zero]
    | succ j =>
      simp only [List.getElem?_cons_succ] at hf
      have hge : B + g.content.length ≤ f.start_pos :=
        chained_start_le hrest j f hf
      have hno : ¬ (g.start_pos ≤ p ∧ p < g.start_pos + g.content.length) := by
        omega
      unfold lookup_location_aux
      rw [if_neg hno]
      have harg : i + 1 + j = i + (j + 1) := by omega
      rw [ih hrest j f p (i + 1) hf h1 h2, harg]

theorem lookup_aux_none (fs : List SourceFile) (i p : Nat)
    (h : ∀ f ∈ fs, ¬(f.start_pos ≤ p ∧ p < f.start_pos + f.content.length)) :
    lookup_location_aux fs i p = none := by
  induction fs generalizing i with
  | nil => rfl
  | cons g gs ih =>
    unfold lookup_location_aux
    rw [if_neg (h g (List.mem_cons_self g gs))]
    exact ih (i + 1) (fun f hf => h f (List.mem_cons_of_mem g hf))

/-- Claim C1: in every reachable source map, `lookup_location` of any global
position inside a registered file's range returns a location that
`lookup_byte_pos` maps back to the same position, and `lookup_location` is
absent for every position outside all registered ranges. -/
theorem c1_lookup_roundtrip (s : SourceMap) (h : Reachable s) :
    (∀ (j : Nat) (f : SourceFile) (p : Nat),
        s.files[j]? = some f → f.start_pos ≤ p →
        p < f.start_pos + f.content.length →
        ∃ loc, s.lookup_location p = some loc ∧
          s.lookup_byte_pos loc = some p) ∧
    (∀ p, (∀ f ∈ s.files,
        ¬(f.start_pos ≤ p ∧ p < f.start_pos + f.content.length)) →
        s.lookup_location p = none) := by
  obtain ⟨hc, _, hw⟩ := reachable_inv h
  constructor
  · intro j f p hf h1 h2
    refine ⟨f.byte_pos_to_location (p - f.start_pos) j, ?_, ?_⟩
    · have := lookup_aux_some hc j f p 0 hf h1 h2
      simpa [SourceMap.lookup_location] using this
    · have hmem : f ∈ s.files := mem_of_getElem?_sf hf
      have hrt := location_roundtrip f (hw f hmem) (p - f.start_pos)
        (by omega) j
      simp only [SourceMap.lookup_byte_pos, SourceMap.get_file, bp2l_file,
        hf, hrt]
      congr 1
      omega
  · intro p hp
    exact lookup_aux_none s.files 0 p hp

/-- Witness for C1: position 5 of the sample map (the newline of file a). -/
theorem c1_witness :
    ∃ loc, sampleMap.lookup_location 5 = some loc ∧
      sampleMap.lookup_byte_pos loc = some 5 :=
  (c1_lookup_roundtrip sampleMap sampleMap_reachable).1 0
    (SourceFile.mk_file "a.txt" ("hello\nworld".toList) 0) 5
    (by decide) (by decide) (by decide)

/-! ## Claim C5: add_file is idempotent by name -/
theorem lookupName_append_self (m : List (String × Nat)) (name : String)
    (v : Nat) (h : lookupName m name = none) :
    lookupName (m ++ [(name, v)]) name = some v := by
  induction m with
  | nil => simp [lookupName]
  | cons p rest ih =>
    obtain ⟨k, w⟩ := p
    by_cases hk : k = name
    · simp [lookupName, hk] at h
    · simp only [lookupName, hk, if_false, List.cons_append] at h ⊢
      exact ih h

/-- Claim C5: calling `add_file` twice with the same name returns the same
`FileId` both times, and the second call leaves the entire `SourceMap` state
(in particular `next_start_pos`) unchanged. -/
theorem c5_add_file_idempotent (s : SourceMap) (name : String)
    (c1 c2 : List Char) :
    ((s.add_file name c1).2.add_file name c2).1 = (s.add_file name c1).1 ∧
    ((s.add_file name c1).2.add_file name c2).2 = (s.add_file name c1).2 := by
  unfold SourceMap.add_file
  cases hfind : lookupName s.file_id_map name with
  | some fid => simp [hfind]
  | none =>
    simp only [hfind]
    have h2 : lookupName (s.file_id_map ++ [(name, s.files.length)]) name
        = some s.files.length := lookupName_append_self _ _ _ hfind
    simp [h2]

/-! ## Justification of the upper_bound model: line_starts is strictly sorted -/
theorem line_starts_aux_gt (c : List Char) :
    ∀ (i : Nat), ∀ x ∈ line_starts_aux c i, i < x := by
  induction c with
  | nil => intro i x hx; simp [line_starts_aux] at hx
  | cons a t ih =>
    intro i x hx
    by_cases ha : a = '\n'
    · simp only [line_starts_aux, ha, if_true, List.mem_cons] at hx
      rcases hx with hx | hx
      · omega
      · have := ih (i + 1) x hx; omega
    · simp only [line_starts_aux, ha, if_false] at hx
      have := ih (i + 1) x hx; omega

theorem line_starts_aux_chain (c : List Char) :
    ∀ (i : Nat), List.Chain' (· < ·) (line_starts_aux c i) := by
  induction c with
  | nil => intro i; simp [line_starts_aux]
  | cons a t ih =>
    intro i
    by_cases ha : a = '\n'
    · simp only [line_starts_aux, ha, if_true]
      refine List.chain'_cons'.mpr ⟨?_, ih (i + 1)⟩
      intro y hy
      exact line_starts_aux_gt t (i + 1) y (List.mem_of_mem_head? hy)
    · simp only [line_starts_aux, ha, if_false]
      exact ih (i + 1)

/-- The `compute_line_starts` always produces a strictly increasing list, so the
`takeWhile`-based `upper_bound_idx` coincides with `std::upper_bound` on it. -/
theorem compute_line_starts_sorted (c : List Char) :
    List.Chain' (· < ·) (compute_line_starts c) := by
  unfold compute_line_starts
  refine List.chain'_cons'.mpr ⟨?_, line_starts_aux_chain c 0⟩
  intro y hy
  exact line_starts_aux_gt c 0 y (List.mem_of_mem_head? hy)

theorem listExtract_append (l₁ l₂ : List Char) (a b : Nat) :
    listExtract (l₁ ++ l₂) a b
      = listExtract l₁ a b ++ listExtract l₂ (a - l₁.length) (b - l₁.length) := by
  unfold listExtract
  rw [List.drop_append_eq_append_drop, List.take_append_eq_append_take]
  congr 2
  rw [List.length_drop]
  omega

theorem listExtract_of_stop_le (l : List Char) (a b : Nat) (h : b ≤ a) :
    listExtract l a b = [] := by
  unfold listExtract
  have hz : b - a = 0 := by omega
  simp [hz]

theorem listExtract_stop_ge (l : List Char) (a b : Nat) (h : l.length ≤ b) :
    listExtract l a b = l.drop a := by
  unfold listExtract
  apply List.take_of_length_le
  rw [List.length_drop]
  omega

/-- Once `covered_end` equals `span.end`, the rest of the loop collects
nothing and leaves the cursor unchanged. -/
theorem gstLoop_at_end (e : Nat) (fs : List SourceFile) (acc : List Char) :
    gstLoop e fs acc e = some (acc, e) := by
  induction fs generalizing acc with
  | nil => rfl
  | cons f fs ih =>
    show (if e < f.start_pos + f.content.length ∧ f.start_pos < e ∧
          f.start_pos ≤ e then _ else _) = _
    by_cases hcond : e < f.start_pos + f.content.length ∧ f.start_pos < e ∧
        f.start_pos ≤ e
    · rw [if_pos hcond]
      obtain ⟨h1, h2, h3⟩ := hcond
      have hmax : max e f.start_pos = e := by omega
      have hmin : min e (f.start_pos + f.content.length) = e := by omega
      have hgst : f.get_span_text
          ⟨max e f.start_pos - f.start_pos,
           min e (f.start_pos + f.content.length) - f.start_pos⟩
          = some [] := by
        rw [hmax, hmin]
        unfold SourceFile.get_span_text
        rw [if_pos ⟨by simp [Span.is_valid], by simp only; omega⟩]
        rw [listExtract_of_stop_le _ _ _ (le_refl _)]
      simp only [hgst]
      have hce : f.start_pos
          + (min e (f.start_pos + f.content.length) - f.start_pos) = e := by
        omega
      rw [hce, List.append_nil]
      exact ih _
    · rw [if_neg hcond]
      exact ih _

/-- Main loop invariant of `get_span_text`: over files tiling `[B, B+total)`,
starting from a cursor `ce` with `B ≤ ce ≤ e`, the loop returns the bytes of
`[ce, min e end)` and leaves the cursor at `max ce (min e end)`. -/
theorem gstLoop_spec (e : Nat) (fs : List SourceFile) (B : Nat)
    (hch : Chained fs B) (acc : List Char) (ce : Nat) (hB : B ≤ ce)
    (hce : ce ≤ e) :
    gstLoop e fs acc ce
      = some (acc ++ listExtract (concatContent fs) (ce - B)
                (min e (B + totalLen fs) - B),
              max ce (min e (B + totalLen fs))) := by
  induction fs generalizing B acc ce with
  | nil =>
    have hmx : max ce (min e (B + totalLen ([] : List SourceFile))) = ce := by
      simp only [totalLen, List.map_nil, List.sum_nil]
      omega
    simp [gstLoop, concatContent, listExtract, hmx]
  | cons f fs ih =>
    obtain ⟨hg, hrest⟩ := hch
    subst hg
    have hTtot : totalLen (f :: fs)
        = f.content.length + totalLen fs := by
      simp [totalLen]
    rw [hTtot]
    have hCcat : concatContent (f :: fs)
        = f.content ++ concatContent fs := by
      simp [concatContent]
    rw [hCcat]
    show (if ce < f.start_pos + f.content.length ∧ f.start_pos < e ∧
          f.start_pos ≤ ce then _ else _) = _
    by_cases hcond : ce < f.start_pos + f.content.length ∧ f.start_pos < e
    · rw [if_pos ⟨hcond.1, hcond.2, hB⟩]
      obtain ⟨h1, h2⟩ := hcond
      have hmax : max ce f.start_pos = ce := by omega
      have htxt : f.get_span_text
          ⟨max ce f.start_pos - f.start_pos,
           min e (f.start_pos + f.content.length) - f.start_pos⟩
          = some (listExtract f.content (ce - f.start_pos)
              (min e (f.start_pos + f.content.length) - f.start_pos)) := by
        rw [hmax]
        unfold SourceFile.get_span_text
        rw [if_pos ⟨by simp [Span.is_valid]; omega, by simp only; omega⟩]
      simp only [htxt]
      have hnewce : f.start_pos
          + (min e (f.start_pos + f.content.length) - f.start_pos)
          = min e (f.start_pos + f.content.length) := by omega
      rw [hnewce]
      by_cases hef : f.start_pos + f.content.length ≤ e
      · have hmine : min e (f.start_pos + f.content.length)
            = f.start_pos + f.content.length := by omega
        rw [hmine]
        rw [ih _ hrest _ _ (le_refl _) hef]
        rw [listExtract_append]
        have hz : ce - f.start_pos - f.content.length = 0 := by omega
        have hz2 : min e (f.start_pos + (f.content.length + totalLen fs))
            - f.start_pos - f.content.length
            = min e (f.start_pos + f.content.length + totalLen fs)
              - (f.start_pos + f.content.length) := by omega
        have hleft : listExtract f.content (ce - f.start_pos)
            (min e (f.start_pos + (f.content.length + totalLen fs))
              - f.start_pos)
            = listExtract f.content (ce - f.start_pos)
              (f.content.length + f.content.length) := by
          rw [listExtract_stop_ge _ _ _ (by omega),
            listExtract_stop_ge _ _ _ (by omega)]
        have hleft2 : listExtract f.content (ce - f.start_pos)
            (f.content.length + f.content.length)
            = listExtract f.content (ce - f.start_pos)
              (f.start_pos + f.content.length - f.start_pos) := by
          rw [listExtract_stop_ge _ _ _ (by omega),
            listExtract_stop_ge _ _ _ (by omega)]
        have hmx : max ce (min e (f.start_pos
              + (f.content.length + totalLen fs)))
            = max (f.start_pos + f.content.length)
              (min e (f.start_pos + f.content.length + totalLen fs)) := by
          omega
        rw [hleft, hleft2, hz, hz2, hmx, List.append_assoc, Nat.sub_self]
      · have hmine : min e (f.start_pos + f.content.length) = e := by omega
        rw [hmine]
        rw [gstLoop_at_end]
        have hminE : min e (f.start_pos + (f.content.length + totalLen fs))
            = e := by omega
        rw [hminE]
        rw [listExtract_append]
        have hz : listExtract (concatContent fs)
            (ce - f.start_pos - f.content.length)
            (e - f.start_pos - f.content.length) = [] :=
          listExtract_of_stop_le _ _ _ (by omega)
        have hmx : max ce e = e := by omega
        rw [hz, hmx, List.append_nil]
    · have hno : ¬ (ce < f.start_pos + f.content.length ∧ f.start_pos < e ∧
          f.start_pos ≤ ce) := by
        intro hx
        exact hcond ⟨hx.1, hx.2.1⟩
      rw [if_neg hno]
      by_cases hsk : f.start_pos + f.content.length ≤ ce
      · rw [ih _ hrest acc ce hsk hce]
        rw [listExtract_append]
        have hleft : listExtract f.content (ce - f.start_pos)
            (min e (f.start_pos + (f.content.length + totalLen fs))
              - f.start_pos) = [] := by
          unfold listExtract
          rw [List.drop_eq_nil_of_le (by omega)]
          simp
        have hz1 : ce - f.start_pos - f.content.length
            = ce - (f.start_pos + f.content.length) := by omega
        have hz2 : min e (f.start_pos + (f.content.length + totalLen fs))
            - f.start_pos - f.content.length
            = min e (f.start_pos + f.content.length + totalLen fs)
              - (f.start_pos + f.content.length) := by omega
        have hmx : max ce (min e (f.start_pos
              + (f.content.length + totalLen fs)))
            = max ce (min e (f.start_pos + f.content.length
              + totalLen fs)) := by omega
        rw [hleft, hz1, hz2, hmx, List.nil_append]
      · have hee : ce = e := by omega
        subst hee
        rw [gstLoop_at_end]
        have hext : listExtract (f.content ++ concatContent fs)
            (ce - f.start_pos)
            (min ce (f.start_pos + (f.content.length + totalLen fs))
              - f.start_pos) = [] :=
          listExtract_of_stop_le _ _ _ (by omega)
        have hmx : max ce (min ce (f.start_pos
              + (f.content.length + totalLen fs))) = ce := by omega
        rw [hext, hmx, List.append_nil]

/-- Amended claim C6: `get_span_text` returns the byte substring
`[start, end)` of the concatenation of all registered contents whenever
`start ≤ end` and either `end` lies within the registered global space or the
span is empty; it is absent in every other case.  (Zero-length spans beyond
the end of the registered space return the empty string rather than being
absent.) -/
theorem c6_get_span_text_amended (s : SourceMap) (h : Reachable s)
    (sp : Span) :
    s.get_span_text sp
      = if sp.start ≤ sp.stop ∧
          (sp.stop ≤ totalLen s.files ∨ sp.start = sp.stop)
        then some (listExtract (concatContent s.files) sp.start sp.stop)
        else none := by
  obtain ⟨hc, _, _⟩ := reachable_inv h
  unfold SourceMap.get_span_text
  by_cases hv : sp.start ≤ sp.stop
  · rw [if_pos (show sp.is_valid = true by
      simp only [Span.is_valid, decide_eq_true_eq]; exact hv)]
    rw [gstLoop_spec sp.stop s.files 0 hc [] sp.start (Nat.zero_le _) hv]
    simp only [Nat.sub_zero, List.nil_append, Nat.zero_add]
    by_cases hend : sp.stop ≤ totalLen s.files
    · have hmn : min sp.stop (totalLen s.files) = sp.stop := by omega
      have hmx : max sp.start sp.stop = sp.stop := by omega
      rw [hmn, hmx, if_pos (le_refl _), if_pos ⟨hv, Or.inl hend⟩]
    · have hmn : min sp.stop (totalLen s.files) = totalLen s.files := by
        omega
      rw [hmn]
      by_cases heq : sp.start = sp.stop
      · have hmx : max sp.start (totalLen s.files) = sp.start := by omega
        rw [hmx, if_pos (by omega), if_pos ⟨hv, Or.inr heq⟩]
        rw [listExtract_of_stop_le _ _ _ (by omega),
          listExtract_of_stop_le _ _ _ (by omega)]
      · have hlt : max sp.start (totalLen s.files) < sp.stop := by omega
        rw [if_neg (by omega), if_neg (by
          intro hx
          rcases hx.2 with hx2 | hx2 <;> omega)]
  · rw [if_neg (show ¬ sp.is_valid = true by
      simp only [Span.is_valid, decide_eq_true_eq]; exact hv)]
    rw [if_neg (by intro hx; exact hv hx.1)]

theorem xMap_reachable : Reachable xMap :=
  Reachable.add _ _ _ Reachable.empty

/-- Counterexample to claim C6 as stated: the zero-length span `[100,100)`
lies entirely outside the registered global space (total length 11), so the
claim demands an absent result, but `get_span_text` returns the empty
string. -/
theorem c6_counterexample :
    xMap.get_span_text ⟨100, 100⟩ = some [] ∧
    totalLen xMap.files = 11 ∧ ¬ (100 ≤ totalLen xMap.files) := by
  refine ⟨by decide, by decide, by decide⟩

/-- Witness for C6 (amended): the spec's concrete examples. -/
theorem c6_witness :
    xMap.get_span_text ⟨6, 11⟩ = some ("world".toList) ∧
    xMap.get_span_text ⟨100, 200⟩ = none := by
  constructor
  · have h := c6_get_span_text_amended xMap xMap_reachable ⟨6, 11⟩
    rw [if_pos (by decide)] at h
    rw [h]
    decide
  · have h := c6_get_span_text_amended xMap xMap_reachable ⟨100, 200⟩
    rw [if_neg (by decide)] at h
    exact h

/-! ## Claim C10: get_node_type totality and the default arm -/
/-- Claim C10: `get_node_type` is total over `NodeKind`, and exactly the two
kinds `EnumVariantWithPattern` and `PathSelectMulti` lack an explicit case,
falling through the `default` arm to `NoChild`. -/
theorem c10_node_type_default :
    (∀ k : NodeKind, hasExplicitCase k = false ↔
      (k = NodeKind.EnumVariantWithPattern ∨ k = NodeKind.PathSelectMulti)) ∧
    get_node_type NodeKind.EnumVariantWithPattern = NodeType.NoChild ∧
    get_node_type NodeKind.PathSelectMulti = NodeType.NoChild := by
  refine ⟨?_, rfl, rfl⟩
  intro k
  cases k <;>
    first
      | exact ⟨fun h => Bool.noConfusion h,
          fun h => h.elim (fun h => NodeKind.noConfusion h)
            (fun h => NodeKind.noConfusion h)⟩
      | exact ⟨fun _ => Or.inl rfl, fun _ => rfl⟩
      | exact ⟨fun _ => Or.inr rfl, fun _ => rfl⟩

/-! ## Claims C3 and C9: arena round trip and accessor bounds -/
theorem getD_append_len (xs ys : List Nat) (y : Nat) :
    (xs ++ y :: ys).getD xs.length 0 = y := by
  induction xs with
  | nil => rfl
  | cons a t ih => simpa using ih

theorem getD_append_left (xs ys : List Nat) (i : Nat) (h : i < xs.length) :
    (xs ++ ys).getD i 0 = xs.getD i 0 := by
  rw [List.getD_eq_getElem?_getD, List.getD_eq_getElem?_getD,
    List.getElem?_append, if_pos h]

theorem flatten_spec (cs : List Child) (buf : List Nat) :
    ((flattenChildren cs buf).2.length = cs.length) ∧
    (∃ ext, (flattenChildren cs buf).1 = buf ++ ext) ∧
    (∀ (j : Nat) (l : List Nat), cs[j]? = some (Child.multiple l) →
      ∃ p, (flattenChildren cs buf).2[j]? = some p ∧ buf.length ≤ p ∧
        p + 1 + l.length ≤ (flattenChildren cs buf).1.length ∧
        (flattenChildren cs buf).1.getD p 0 = l.length ∧
        ((flattenChildren cs buf).1.drop (p + 1)).take l.length = l) := by
  induction cs generalizing buf with
  | nil =>
    refine ⟨rfl, ⟨[], by simp [flattenChildren]⟩, ?_⟩
    intro j l hj
    simp at hj
  | cons c rest ih =>
    cases c with
    | single i =>
      obtain ⟨ihlen, ⟨ext, hext⟩, ihm⟩ := ih buf
      refine ⟨by simp [flattenChildren, ihlen], ⟨ext, by
        simp only [flattenChildren]; exact hext⟩, ?_⟩
      intro j l hj
      cases j with
      | zero =>
        simp only [List.getElem?_cons_zero, Option.some.injEq] at hj
        exact absurd hj (by intro h; cases h)
      | succ j =>
        simp only [List.getElem?_cons_succ] at hj
        obtain ⟨p, hp, hge, hbound, hcount, hslice⟩ := ihm j l hj
        exact ⟨p, by simpa [flattenChildren] using hp, hge, hbound, hcount,
          hslice⟩
    | multiple m =>
      obtain ⟨ihlen, ⟨ext, hext⟩, ihm⟩ := ih (buf ++ m.length :: m)
      have hbuf1 : (flattenChildren rest (buf ++ m.length :: m)).1
          = buf ++ (m.length :: (m ++ ext)) := by
        rw [hext, List.append_assoc]
        rfl
      refine ⟨by simp [flattenChildren, ihlen],
        ⟨m.length :: (m ++ ext), by
          simp only [flattenChildren]; exact hbuf1⟩, ?_⟩
      intro j l hj
      cases j with
      | zero =>
        simp only [List.getElem?_cons_zero, Option.some.injEq] at hj
        have hlm : m = l := by injection hj
        subst hlm
        refine ⟨buf.length, by simp [flattenChildren], le_refl _, ?_, ?_, ?_⟩
        · simp only [flattenChildren]
          rw [hbuf1]
          simp only [List.length_append, List.length_cons]
          omega
        · simp only [flattenChildren]
          rw [hbuf1]
          exact getD_append_len buf (m ++ ext) m.length
        · simp only [flattenChildren]
          rw [hbuf1]
          have hsplit : buf ++ (m.length :: (m ++ ext))
              = (buf ++ [m.length]) ++ (m ++ ext) := by
            simp
          rw [hsplit, List.drop_left' (by simp),
            List.take_append_eq_append_take, List.take_length]
          simp
      | succ j =>
        simp only [List.getElem?_cons_succ] at hj
        obtain ⟨p, hp, hge, hbound, hcount, hslice⟩ := ihm j l hj
        refine ⟨p, by simpa [flattenChildren] using hp, ?_,
          by simpa [flattenChildren] using hbound,
          by simpa [flattenChildren] using hcount,
          by simpa [flattenChildren] using hslice⟩
        simp only [List.length_append] at hge
        omega

theorem Ast.empty_wf : Ast.empty.WF := by
  refine ⟨?_, ?_, ?_, ?_⟩ <;> simp [Ast.empty, Ast.WF]

theorem add_node_fst (a : Ast) (b : NodeBuilder) :
    (a.add_node b).1 = a.nodes.length := rfl

theorem add_node_snd (a : Ast) (b : NodeBuilder) :
    (a.add_node b).2
      = ⟨a.nodes ++ [b.kind], a.spans ++ [b.span],
         a.children_start ++ [(flattenChildren b.children a.children).1.length],
         (flattenChildren b.children a.children).1
           ++ (flattenChildren b.children a.children).2,
         a.root⟩ := rfl

theorem add_node_eq (a : Ast) (b : NodeBuilder) :
    a.add_node b
      = (a.nodes.length,
         ⟨a.nodes ++ [b.kind], a.spans ++ [b.span],
          a.children_start ++ [(flattenChildren b.children a.children).1.length],
          (flattenChildren b.children a.children).1
            ++ (flattenChildren b.children a.children).2,
          a.root⟩) := rfl

theorem get_children_mk (nodes : List NodeKind) (spans : List Span)
    (cs chl : List Nat) (root i : Nat) :
    Ast.get_children ⟨nodes, spans, cs, chl, root⟩ i
      = if i = 0 ∨ nodes.length ≤ i then []
        else (chl.drop (cs.getD i 0)).take
          ((if i + 1 < cs.length then cs.getD (i + 1) 0 else chl.length)
            - cs.getD i 0) := rfl

theorem get_multi_child_slice_mk (nodes : List NodeKind) (spans : List Span)
    (cs chl : List Nat) (root p : Nat) :
    Ast.get_multi_child_slice ⟨nodes, spans, cs, chl, root⟩ p
      = if p = 0 ∨ chl.length ≤ p then none
        else if chl.length < p + 1 + chl.getD p 0 then none
        else some ((chl.drop (p + 1)).take (chl.getD p 0)) := rfl

theorem Ast.add_node_wf (a : Ast) (hwf : a.WF) (b : NodeBuilder) :
    (a.add_node b).2.WF := by
  obtain ⟨h1, h2, h3, h4⟩ := hwf
  obtain ⟨_, ⟨ext, hext⟩, _⟩ := flatten_spec b.children a.children
  rw [add_node_eq]
  refine ⟨?_, ?_, ?_, ?_⟩
  · simp only [List.length_append, List.length_cons, List.length_nil]
    omega
  · simp only [List.length_append, List.length_cons, List.length_nil]
    omega
  · simp only [List.length_append, List.length_cons, List.length_nil]
    omega
  · show 1 ≤ ((flattenChildren b.children a.children).1
      ++ (flattenChildren b.children a.children).2).length
    rw [hext]
    simp only [List.length_append]
    omega

/-- Claim C3: after `add_node` of a builder whose `j`-th child slot is a
variable-length group of indices `l`, the `j`-th descriptor of the new node's
child list is a position from which `get_multi_child_slice` recovers exactly
`l`, in insertion order. -/
theorem c3_multi_child_roundtrip (a : Ast) (hwf : a.WF) (b : NodeBuilder)
    (j : Nat) (l : List Nat)
    (hj : b.children[j]? = some (Child.multiple l)) :
    ∃ p, ((a.add_node b).2.get_children (a.add_node b).1)[j]? = some p ∧
      (a.add_node b).2.get_multi_child_slice p = some l := by
  obtain ⟨h1, h2, h3, h4⟩ := hwf
  obtain ⟨hlen, ⟨ext, hext⟩, hmulti⟩ := flatten_spec b.children a.children
  obtain ⟨p, hp, hge, hbound, hcount, hslice⟩ := hmulti j l hj
  have hchildren : (a.add_node b).2.get_children (a.add_node b).1
      = (flattenChildren b.children a.children).2 := by
    rw [add_node_fst, add_node_snd, get_children_mk]
    rw [if_neg (by simp only [List.length_append, List.length_cons]; omega)]
    have hstart : (a.children_start ++
        [(flattenChildren b.children a.children).1.length]).getD
        a.nodes.length 0
        = (flattenChildren b.children a.children).1.length := by
      rw [← h3]
      exact getD_append_len _ [] _
    rw [hstart]
    rw [if_neg (by
      simp only [List.length_append, List.length_cons, List.length_nil]
      omega)]
    rw [List.drop_left' rfl, List.length_append]
    have hsub : (flattenChildren b.children a.children).1.length
        + (flattenChildren b.children a.children).2.length
        - (flattenChildren b.children a.children).1.length
        = (flattenChildren b.children a.children).2.length := by omega
    rw [hsub, List.take_length]
  refine ⟨p, by rw [hchildren]; exact hp, ?_⟩
  rw [add_node_snd, get_multi_child_slice_mk]
  have hplt : p < (flattenChildren b.children a.children).1.length := by
    omega
  rw [if_neg (by simp only [List.length_append]; omega)]
  rw [getD_append_left _ _ _ hplt, hcount]
  rw [if_neg (by simp only [List.length_append]; omega)]
  rw [List.drop_append_eq_append_drop, List.take_append_eq_append_take]
  rw [hslice]
  have hlen2 : l.length
      - ((flattenChildren b.children a.children).1.drop (p + 1)).length
      = 0 := by
    rw [List.length_drop]
    omega
  rw [hlen2]
  simp

/-- Claim C9: the arena accessors return `none` exactly for the sentinel
index 0 and for indices at or beyond the arena size, and return the stored
kind, span and children view for every in-range index; the embedding is a
total function, mirroring the C++ guards that prevent any out-of-bounds
access (no panic or exception is possible). -/
theorem c9_accessor_bounds (a : Ast) (hwf : a.WF) (i : Nat) :
    ((i = 0 ∨ a.nodes.length ≤ i) →
      a.get_node_kind i = none ∧ a.get_span i = none ∧
      a.get_node i = none) ∧
    (1 ≤ i → i < a.nodes.length →
      ∃ k sp, a.nodes[i]? = some k ∧ a.spans[i]? = some sp ∧
        a.get_node_kind i = some k ∧ a.get_span i = some sp ∧
        a.get_node i = some (k, sp, a.get_children i)) := by
  obtain ⟨h1, h2, h3, h4⟩ := hwf
  constructor
  · intro hout
    refine ⟨?_, ?_, ?_⟩ <;>
      simp only [Ast.get_node_kind, Ast.get_span, Ast.get_node,
        if_pos hout]
  · intro hi1 hilt
    have hin : ¬ (i = 0 ∨ a.nodes.length ≤ i) := by omega
    refine ⟨a.nodes.getD i NodeKind.Invalid, a.spans.getD i ⟨0, 0⟩,
      ?_, ?_, ?_, ?_, ?_⟩
    · rw [List.getElem?_eq_getElem hilt, List.getD_eq_getElem a.nodes NodeKind.Invalid hilt]
    · rw [List.getElem?_eq_getElem (by omega),
        List.getD_eq_getElem _ _ (by omega)]
    · simp only [Ast.get_node_kind, if_neg hin]
    · simp only [Ast.get_span, if_neg hin]
    · simp only [Ast.get_node, if_neg hin]

/-- Witness for C3: a builder with one single child and one variable-length
group of size 2, appended to the empty arena. -/
theorem c3_witness :
    ∃ p, ((Ast.empty.add_node
        ⟨NodeKind.Call, ⟨0, 4⟩,
         [Child.single 1, Child.multiple [2, 3]]⟩).2.get_children
      (Ast.empty.add_node
        ⟨NodeKind.Call, ⟨0, 4⟩,
         [Child.single 1, Child.multiple [2, 3]]⟩).1)[1]? = some p ∧
      (Ast.empty.add_node
        ⟨NodeKind.Call, ⟨0, 4⟩,
         [Child.single 1, Child.multiple [2, 3]]⟩).2.get_multi_child_slice p
        = some [2, 3] :=
  c3_multi_child_roundtrip Ast.empty Ast.empty_wf
    ⟨NodeKind.Call, ⟨0, 4⟩, [Child.single 1, Child.multiple [2, 3]]⟩
    1 [2, 3] rfl

/-- Witness for C9 at a concrete two-node arena. -/
theorem c9_witness :
    (sampleAst.get_node_kind 0 = none ∧ sampleAst.get_span 0 = none ∧
      sampleAst.get_node 0 = none) ∧
    (∃ k sp, sampleAst.nodes[1]? = some k ∧ sampleAst.spans[1]? = some sp ∧
      sampleAst.get_node_kind 1 = some k ∧ sampleAst.get_span 1 = some sp ∧
      sampleAst.get_node 1 = some (k, sp, sampleAst.get_children 1)) :=
  ⟨(c9_accessor_bounds sampleAst
      ⟨by decide, by decide, by decide, by decide⟩ 0).1 (Or.inl rfl),
   (c9_accessor_bounds sampleAst
      ⟨by decide, by decide, by decide, by decide⟩ 1).2
      (by decide) (by decide)⟩

/-! ## Claim C2: emit policy, counters and the hard ceiling -/
/-- Claim C2: `emit` drops the diagnostic entirely (no counter change, no
dispatch) iff `can_emit` fails; otherwise it dispatches one event per
registered emitter in registration order and bumps exactly the matching
counter (Error/Fatal share the error budget, Note bumps nothing); with
`max_errors = 2` and one emitter, three Error diagnostics leave
`error_count = 2` and exactly two dispatch events. -/
theorem c2_emit_policy :
    (∀ (c : DiagCtxt) (d : Diag), c.can_emit d.level = false →
      c.emit d = c) ∧
    (∀ (c : DiagCtxt) (d : Diag), c.can_emit d.level = true →
      (c.emit d).trace
        = c.trace ++ (List.range c.num_emitters).map (fun i => (i, d)) ∧
      (c.emit d).error_count = c.error_count
        + (if d.level = .Error ∨ d.level = .Fatal then 1 else 0) ∧
      (c.emit d).warning_count = c.warning_count
        + (if d.level = .Warning then 1 else 0) ∧
      (c.emit d).num_emitters = c.num_emitters ∧
      (c.emit d).options = c.options) ∧
    (∀ c : DiagCtxt, c.can_emit .Note = true) ∧
    (∀ d : Diag, d.level = .Error →
      (((mkCtxt2.emit d).emit d).emit d).error_count = 2 ∧
      (((mkCtxt2.emit d).emit d).emit d).trace.length = 2) := by
  refine ⟨?_, ?_, ?_, ?_⟩
  · intro c d h
    unfold DiagCtxt.emit
    rw [if_neg (by simp [h])]
  · intro c d h
    unfold DiagCtxt.emit
    rw [if_pos h]
    cases hl : d.level <;> simp [hl]
  · intro c
    rfl
  · intro d hd
    have e1 : mkCtxt2.emit d
        = ⟨⟨2, 1000, true, false, 0⟩, 1, 1, 0, [(0, d)]⟩ := by
      simp [DiagCtxt.emit, DiagCtxt.can_emit, hd, mkCtxt2,
        show List.range 1 = [0] from rfl]
    have e2 : (⟨⟨2, 1000, true, false, 0⟩, 1, 1, 0, [(0, d)]⟩ :
        DiagCtxt).emit d
        = ⟨⟨2, 1000, true, false, 0⟩, 1, 2, 0, [(0, d), (0, d)]⟩ := by
      simp [DiagCtxt.emit, DiagCtxt.can_emit, hd,
        show List.range 1 = [0] from rfl]
    have e3 : (⟨⟨2, 1000, true, false, 0⟩, 1, 2, 0, [(0, d), (0, d)]⟩ :
        DiagCtxt).emit d
        = ⟨⟨2, 1000, true, false, 0⟩, 1, 2, 0, [(0, d), (0, d)]⟩ := by
      simp [DiagCtxt.emit, DiagCtxt.can_emit, hd]
    rw [e1, e2, e3]
    exact ⟨rfl, rfl⟩

/-- Witness for C2: the three-error ceiling scenario at a concrete context
and diagnostic. -/
theorem c2_witness :
    (((mkCtxt2.emit errDiag).emit errDiag).emit errDiag).error_count = 2 ∧
    (((mkCtxt2.emit errDiag).emit errDiag).emit errDiag).trace.length = 2 :=
  c2_emit_policy.2.2.2 errDiag rfl

/-! ## Claim C7: the underline row for zero-length spans -/
/-- Claim C7 fails on the code: `span_len` can never be 0 (the column
difference falls back to 1 whenever it is not positive), so the insertion
caret branch is unreachable and a zero-length span is underlined with a
single dash; moreover the "pointer" glyph is the same character as the
underline glyph, not a distinct one.  Evaluated at the failing input: a
zero-length span whose start and end both resolve to line 1, column 3. -/
theorem c7_zero_span_dash :
    (∀ (s : Location) (e : Option Location), 1 ≤ underline_span_len s e) ∧
    underline_span_len ⟨0, 1, 3⟩ (some ⟨0, 1, 3⟩) = 1 ∧
    underline_glyphs true 1 = "─" ∧
    underline_glyphs false 1 = "-" ∧
    underline_glyphs true 3 = "───" ∧
    render_underline true ⟨⟨3, 3⟩, "", .Error, 1⟩ ⟨0, 1, 3⟩
      (some ⟨0, 1, 3⟩) 1 = "   │    ─\n" ∧
    "─" ≠ "│" := by
  refine ⟨?_, rfl, rfl, rfl, by decide, by decide, by decide⟩
  intro s e
  cases e with
  | none => exact le_refl 1
  | some e2 =>
    simp only [underline_span_len]
    by_cases h1 : e2.line = s.line
    · rw [if_pos h1]
      by_cases h2 : s.column < e2.column
      · rw [if_pos h2]
        omega
      · rw [if_neg h2]
    · rw [if_neg h1]

/-- Counterexample to claim C8 as stated: `std::sort` (not `stable_sort`) is
used, and its contract admits an output in which two labels with equal span
start appear in reverse insertion order — here the label inserted second is
rendered first and even becomes the primary label. -/
theorem c8_counterexample :
    IsStdSortResult [labA, labB] [labB, labA] ∧
    [labB, labA] ≠ [labA, labB] ∧
    rendered_labels [labB, labA] = [(labB, true), (labA, false)] := by
  refine ⟨⟨List.Perm.swap labB labA [], ?_⟩, by decide, rfl⟩
  decide

theorem map_fst_pair (rest : List Label) :
    (rest.map (fun lab => (lab, false))).map Prod.fst = rest := by
  induction rest with
  | nil => rfl
  | cons a t ih => simp only [List.map_cons, ih]

theorem map_snd_pair (rest : List Label) :
    (rest.map (fun lab => (lab, false))).map Prod.snd
      = List.replicate rest.length false := by
  induction rest with
  | nil => rfl
  | cons a t ih =>
    simp only [List.map_cons, ih, List.length_cons, List.replicate_succ]

/-- Amended claim C8: any output satisfying the `std::sort` contract is a
permutation of the diagnostic's labels in ascending span-start order, is
rendered in exactly that order, and only its first element is primary; the
relative order of labels with equal span start is unspecified. -/
theorem c8_sorted_amended (d : Diag) (out : List Label)
    (h : IsStdSortResult d.labels out) :
    List.Pairwise (fun a b => a.span.start ≤ b.span.start) out ∧
    List.Perm d.labels out ∧
    (rendered_labels out).map Prod.fst = out ∧
    (out = [] ∨ (rendered_labels out).map Prod.snd
      = true :: List.replicate (out.length - 1) false) := by
  refine ⟨h.2, h.1, ?_, ?_⟩
  · cases out with
    | nil => rfl
    | cons a rest =>
      simp only [rendered_labels, List.map_cons, map_fst_pair]
  · cases out with
    | nil => exact Or.inl rfl
    | cons a rest =>
      refine Or.inr ?_
      simp only [rendered_labels, List.map_cons, map_snd_pair,
        List.length_cons, Nat.add_sub_cancel]

/-- Witness for C8 (amended), at a concrete diagnostic whose two labels tie
on span start, with the identity permutation as the sort result. -/
theorem c8_witness :
    List.Pairwise (fun a b => a.span.start ≤ b.span.start) [labA, labB] ∧
    List.Perm [labA, labB] [labA, labB] ∧
    (rendered_labels [labA, labB]).map Prod.fst = [labA, labB] ∧
    ([labA, labB] = ([] : List Label) ∨
      (rendered_labels [labA, labB]).map Prod.snd
        = true :: List.replicate ([labA, labB].length - 1) false) :=
  c8_sorted_amended
    ⟨DiagLevel.Error, none, "", ⟨0, 0⟩, [labA, labB], []⟩ [labA, labB]
    ⟨by decide, by decide⟩

end Beleg

